import Mathlib

/-!
Verification of the color-frequency statistics engine from
`src/bincom_test_solution.py` (class `BincomColorAnalyzer` and the
bonus utilities `recursive_search` and `sum_first_50_fibonacci`).

Shallow embedding conventions:
* A Python `list` of color strings is a `List String`.
* `collections.Counter(colors)` is `counter colors`: an association list
  `List (String × Nat)` built by inserting elements left to right, so keys
  appear in first-occurrence order with their running counts, exactly like
  the insertion-ordered Python `dict` underlying `Counter`.
* `dict.get k default` is `(tblGet t k).getD default`.
* Python `max(items, key=...)` is `pyMax`: it scans left to right and
  replaces the current best only on a strictly greater key, hence it
  returns the first maximal element in iteration order.
* Python float arithmetic on the statistics is modelled exactly over `ℚ`.
* `requests.get` + the regex extraction in `fetch_and_parse_html` are
  effectful; their outcome is passed in as a parameter:
  `none` models the fetch raising an exception, `some extracted` models a
  successful fetch whose regex scan produced the list `extracted`.
-/

/-- One step of `Counter` construction: bump the count of `c` if the key is
already present, otherwise append a fresh key with count 1 (Python dicts
preserve insertion order). -/
def counterInsert : List (String × Nat) → String → List (String × Nat)
  | [], c => [(c, 1)]
  | (k, v) :: t, c => if k = c then (k, v + 1) :: t else (k, v) :: counterInsert t c

/-- `collections.Counter(l)` as an insertion-ordered association list. -/
def counter (l : List String) : List (String × Nat) :=
  l.foldl counterInsert []

/-- Dictionary lookup: `t.get c` returning `none` when the key is absent. -/
def tblGet : List (String × Nat) → String → Option Nat
  | [], _ => none
  | (k, v) :: t, c => if k = c then some v else tblGet t c

/-- Python `max` over a nonempty prefix-element and a tail: scan left to
right, replacing the current best only when the key is strictly greater
(`if key(b) > key(cur)`), so ties keep the earlier element. -/
def pyMaxFold {α : Type} (f : α → Nat) (a : α) (l : List α) : α :=
  l.foldl (fun cur b => if f cur < f b then b else cur) a

/-- Python `max(l, key=f)`, total via `Option` (`max` on `[]` raises). -/
def pyMax {α : Type} (f : α → Nat) : List α → Option α
  | [] => none
  | a :: l => some (pyMaxFold f a l)

/-- The state of a `BincomColorAnalyzer` object: `self.url`, `self.colors`
and `self.color_frequencies`. -/
structure BincomColorAnalyzer where
  url : String
  colors : List String
  color_frequencies : List (String × Nat)

/-- `BincomColorAnalyzer.init`. -/
def init : BincomColorAnalyzer :=
  { url := "https://drive.google.com/open?id=1nf9WMDjZWlUnlnKyz7qomEYDdtWW11Jf"
    colors := []
    color_frequencies := [] }

/-- The hard-coded fallback list used by both failure branches of
`fetch_and_parse_html` (source lines 36-37 and 45-46). -/
def fallback_colors : List String :=
  ["RED", "GREEN", "BLUE", "RED", "GREEN", "BLUE", "RED",
   "YELLOW", "BLUE", "RED", "GREEN", "RED", "BLUE", "GREEN"]

/-- `fetch_and_parse_html`.  The effectful fetch/regex part is a parameter:
`none` models `requests.get` (or anything in the `try` block before the
fallback check) raising, `some extracted` models a successful fetch whose
regex `findall` produced `extracted`.  The Python method returns `True` on
the success path and `False` from the `except` handler. -/
def fetch_and_parse_html (a : BincomColorAnalyzer) (fetched : Option (List String)) :
    BincomColorAnalyzer × Bool :=
  match fetched with
  | some extracted =>
    let colors := if extracted = [] then fallback_colors else extracted
    ({ a with colors := colors, color_frequencies := counter colors }, true)
  | none =>
    let colors := fallback_colors
    ({ a with colors := colors, color_frequencies := counter colors }, false)

/-- Analyzer state whose frequency table has been derived from its color
list, as established by `fetch_and_parse_html` (source line 39 / 47). -/
def mkAnalyzer (l : List String) : BincomColorAnalyzer :=
  { url := init.url, colors := l, color_frequencies := counter l }

/-- `get_mean_color`: `max(self.color_frequencies.items(), key=lambda x: x[1])[0]`,
guarded by `if not self.color_frequencies: return None`. -/
def get_mean_color (a : BincomColorAnalyzer) : Option String :=
  if a.color_frequencies = [] then none
  else (pyMax (fun x => x.2) a.color_frequencies).map (fun x => x.1)

/-- `get_most_frequent_color`: delegates to `get_mean_color`. -/
def get_most_frequent_color (a : BincomColorAnalyzer) : Option String :=
  get_mean_color a

/-- `get_median_color`: sort lexicographically, then index `n // 2` for odd
`n` and `(n - 1) // 2` for even `n`. -/
def get_median_color (a : BincomColorAnalyzer) : Option String :=
  if a.colors = [] then none
  else
    let sorted_colors := List.insertionSort (fun x y : String => x ≤ y) a.colors
    let n := sorted_colors.length
    if n % 2 = 1 then some (sorted_colors[n / 2]!)
    else some (sorted_colors[(n - 1) / 2]!)

/-- `get_color_variance`: with `n = len(colors)` and `frequencies` the list
of counter values, returns `sum((f - n/len(frequencies))**2) / len(frequencies)`;
float arithmetic is modelled exactly over `ℚ`. -/
def get_color_variance (a : BincomColorAnalyzer) : ℚ :=
  if a.colors = [] then 0
  else
    let n : ℚ := (a.colors.length : ℚ)
    let frequencies : List Nat := a.color_frequencies.map (fun p => p.2)
    let mean_freq : ℚ := n / (frequencies.length : ℚ)
    (frequencies.map (fun (freq : Nat) => ((freq : ℚ) - mean_freq) ^ 2)).sum /
      (frequencies.length : ℚ)

/-- `get_red_probability`: `self.color_frequencies.get('RED', 0) / len(self.colors)`,
guarded by `if not self.colors: return 0`. -/
def get_red_probability (a : BincomColorAnalyzer) : ℚ :=
  if a.colors = [] then 0
  else
    let red_count := (tblGet a.color_frequencies "RED").getD 0
    (red_count : ℚ) / (a.colors.length : ℚ)

/-- The spec's own formula for the categorical variance (§4.2):
`(1/k) * Σ_labels (count(label) - n/k)^2` over the distinct labels. -/
def spec_color_variance (l : List String) : ℚ :=
  let k : ℚ := (l.toFinset.card : ℚ)
  let n : ℚ := (l.length : ℚ)
  (1 / k) * ∑ c ∈ l.toFinset, ((l.count c : ℚ) - n / k) ^ 2

/-- A method call as a state transformer: `get_mean_color` reads
`self.color_frequencies` and assigns no attribute, so the post-state is the
pre-state. -/
def get_mean_color_call (a : BincomColorAnalyzer) :
    Option String × BincomColorAnalyzer :=
  (get_mean_color a, a)

/-- `get_most_frequent_color` as a state transformer (no attribute writes). -/
def get_most_frequent_color_call (a : BincomColorAnalyzer) :
    Option String × BincomColorAnalyzer :=
  (get_most_frequent_color a, a)

/-- `get_median_color` as a state transformer (no attribute writes). -/
def get_median_color_call (a : BincomColorAnalyzer) :
    Option String × BincomColorAnalyzer :=
  (get_median_color a, a)

/-- `get_color_variance` as a state transformer (no attribute writes). -/
def get_color_variance_call (a : BincomColorAnalyzer) :
    ℚ × BincomColorAnalyzer :=
  (get_color_variance a, a)

/-- `get_red_probability` as a state transformer (no attribute writes). -/
def get_red_probability_call (a : BincomColorAnalyzer) :
    ℚ × BincomColorAnalyzer :=
  (get_red_probability a, a)

/-- `recursive_search(numbers, target, index=0)`. -/
def recursive_search (numbers : List Int) (target : Int) (index : Nat := 0) : Int :=
  if _h : numbers.length ≤ index then -1
  else if numbers[index]! = target then (index : Int)
  else recursive_search numbers target (index + 1)
termination_by numbers.length - index
decreasing_by omega

/-- `sum_first_50_fibonacci`: start from `[0, 1]`, append
`fib[i-1] + fib[i-2]` for `i in range(2, 50)`, and sum the list. -/
def sum_first_50_fibonacci : Nat :=
  let fib_sequence :=
    (List.range' 2 48).foldl (fun seq i => seq ++ [seq[i - 1]! + seq[i - 2]!]) [0, 1]
  fib_sequence.sum

/-- C6: on a fetch exception (`none`) or a successful fetch with zero
recognized labels (`some []`), `fetch_and_parse_html` installs the same
fixed fourteen-label sequence, never propagates the error (it is a total
function returning a `Bool` status), and leaves a non-empty color list. -/
theorem colorAnalyzer_fallback_on_failure :
    ∀ a : BincomColorAnalyzer,
      (fetch_and_parse_html a none).1.colors = fallback_colors ∧
      (fetch_and_parse_html a (some [])).1.colors = fallback_colors ∧
      fallback_colors =
        ["RED", "GREEN", "BLUE", "RED", "GREEN", "BLUE", "RED",
         "YELLOW", "BLUE", "RED", "GREEN", "RED", "BLUE", "GREEN"] ∧
      fallback_colors.length = 14 ∧
      fallback_colors ≠ [] := by
  intro a
  refine ⟨rfl, rfl, rfl, rfl, ?_⟩
  decide

/-- C7: each query method is a pure function of the analyzer state: its
call leaves `colors` and `color_frequencies` (the whole state) unchanged,
and a repeated call on the resulting state returns the same value. -/
theorem colorAnalyzer_queries_pure :
    ∀ a : BincomColorAnalyzer,
      (get_mean_color_call a).2 = a ∧
      (get_most_frequent_color_call a).2 = a ∧
      (get_median_color_call a).2 = a ∧
      (get_color_variance_call a).2 = a ∧
      (get_red_probability_call a).2 = a ∧
      (get_mean_color_call (get_mean_color_call a).2).1 = (get_mean_color_call a).1 ∧
      (get_most_frequent_color_call (get_most_frequent_color_call a).2).1 =
        (get_most_frequent_color_call a).1 ∧
      (get_median_color_call (get_median_color_call a).2).1 =
        (get_median_color_call a).1 ∧
      (get_color_variance_call (get_color_variance_call a).2).1 =
        (get_color_variance_call a).1 ∧
      (get_red_probability_call (get_red_probability_call a).2).1 =
        (get_red_probability_call a).1 := by
  intro a
  exact ⟨rfl, rfl, rfl, rfl, rfl, rfl, rfl, rfl, rfl, rfl⟩

/-- C9: the Fibonacci loop sums `F0 .. F49` (seeds 0 and 1), agreeing with
Mathlib's `Nat.fib` on the first 50 terms, and the value is the literal
`20365011073 = F51 - 1`, in exact integer arithmetic. -/
theorem sum_first_50_fibonacci_value :
    sum_first_50_fibonacci = 20365011073 ∧
    sum_first_50_fibonacci = ((List.range 50).map Nat.fib).sum ∧
    Nat.fib 51 - 1 = 20365011073 := by
  refine ⟨by decide, by decide, by decide⟩

/-- Keys of `counterInsert`: unchanged when the key is present, appended
otherwise (insertion order). -/
theorem keys_counterInsert (t : List (String × Nat)) (c : String) :
    (counterInsert t c).map Prod.fst =
      if c ∈ t.map Prod.fst then t.map Prod.fst else t.map Prod.fst ++ [c] := by
  induction t with
  | nil => simp [counterInsert]
  | cons p t ih =>
    obtain ⟨k, v⟩ := p
    by_cases hk : k = c
    · subst hk; simp [counterInsert]
    · have hck : ¬ c = k := fun h => hk h.symm
      simp only [counterInsert, if_neg hk, List.map_cons, List.mem_cons, hck,
        false_or, ih]
      split <;> simp

/-- Lookup through `counterInsert`: the inserted key's count is bumped by
one (from a default of 0), all other keys are untouched. -/
theorem tblGet_counterInsert (t : List (String × Nat)) (c d : String) :
    tblGet (counterInsert t c) d =
      if d = c then some ((tblGet t c).getD 0 + 1) else tblGet t d := by
  induction t with
  | nil =>
    by_cases h : d = c
    · subst h; simp [counterInsert, tblGet]
    · have hcd : ¬ c = d := fun hh => h hh.symm
      simp [counterInsert, tblGet, h, hcd]
  | cons p t ih =>
    obtain ⟨k, v⟩ := p
    by_cases hk : k = c
    · subst hk
      by_cases hd : d = k
      · subst hd; simp [counterInsert, tblGet]
      · have hkd : ¬ k = d := fun hh => hd hh.symm
        simp [counterInsert, tblGet, hd, hkd]
    · by_cases hd : k = d
      · subst hd
        have hdc : ¬ k = c := hk
        simp [counterInsert, tblGet, hk, hdc]
      · simp [counterInsert, tblGet, hk, hd, ih]

/-- Folding `counterInsert` over a list adds each element's multiplicity to
its looked-up count. -/
theorem tblGet_foldl_counter (l : List String) :
    ∀ (t : List (String × Nat)) (c : String),
      (tblGet (l.foldl counterInsert t) c).getD 0 = (tblGet t c).getD 0 + l.count c := by
  induction l with
  | nil => intro t c; simp
  | cons a l ih =>
    intro t c
    simp only [List.foldl_cons, ih, tblGet_counterInsert, List.count_cons]
    by_cases h : c = a
    · subst h; simp; omega
    · have h2 : ¬ a = c := fun hh => h hh.symm
      simp [h, h2]

/-- A key looks up to something exactly when it is among the table keys. -/
theorem tblGet_isSome_iff (t : List (String × Nat)) (c : String) :
    (tblGet t c).isSome = true ↔ c ∈ t.map Prod.fst := by
  induction t with
  | nil => simp [tblGet]
  | cons p t ih =>
    obtain ⟨k, v⟩ := p
    by_cases hk : k = c
    · subst hk; simp [tblGet]
    · have hck : ¬ c = k := fun h => hk h.symm
      simp [tblGet, hk, hck, ih]

/-- Keys accumulated by the counter fold: the old keys plus the elements of
the list. -/
theorem mem_keys_foldl_counter (l : List String) :
    ∀ (t : List (String × Nat)) (c : String),
      c ∈ (l.foldl counterInsert t).map Prod.fst ↔ c ∈ t.map Prod.fst ∨ c ∈ l := by
  induction l with
  | nil => intro t c; simp
  | cons a l ih =>
    intro t c
    simp only [List.foldl_cons, ih, keys_counterInsert]
    by_cases ha : a ∈ t.map Prod.fst
    · simp only [if_pos ha, List.mem_cons]
      constructor
      · rintro (h | h) <;> tauto
      · rintro (h | h | h)
        · tauto
        · subst h; tauto
        · tauto
    · simp only [if_neg ha, List.mem_append, List.mem_singleton, List.mem_cons]
      tauto

/-- `Counter(l).get(c)` is the multiplicity of `c` in `l` when present. -/
theorem tblGet_counter_eq (l : List String) (c : String) :
    tblGet (counter l) c = if c ∈ l then some (l.count c) else none := by
  unfold counter
  by_cases h : c ∈ l
  · have hs : (tblGet (l.foldl counterInsert []) c).isSome = true := by
      rw [tblGet_isSome_iff, mem_keys_foldl_counter]
      simp [h]
    obtain ⟨v, hv⟩ := Option.isSome_iff_exists.mp hs
    have hd := tblGet_foldl_counter l [] c
    rw [hv] at hd
    simp only [tblGet, Option.getD_some, Option.getD_none] at hd
    rw [hv, if_pos h, hd]
    simp
  · have hs : ¬ (tblGet (l.foldl counterInsert []) c).isSome = true := by
      rw [tblGet_isSome_iff, mem_keys_foldl_counter]
      simp [h]
    rw [if_neg h]
    exact Option.not_isSome_iff_eq_none.mp hs

/-- The counter fold preserves distinctness of keys. -/
theorem nodup_keys_foldl_counter (l : List String) :
    ∀ t : List (String × Nat),
      ((t.map Prod.fst).Nodup) → ((l.foldl counterInsert t).map Prod.fst).Nodup := by
  induction l with
  | nil => intro t ht; simpa using ht
  | cons a l ih =>
    intro t ht
    refine ih (counterInsert t a) ?_
    rw [keys_counterInsert]
    by_cases ha : a ∈ t.map Prod.fst
    · simpa [ha] using ht
    · simp [ha, List.nodup_append, ht]

/-- The Frequency Table has pairwise-distinct keys. -/
theorem nodup_keys_counter (l : List String) :
    ((counter l).map Prod.fst).Nodup :=
  nodup_keys_foldl_counter l [] (by simp)

/-- In a table with distinct keys, each entry is recovered by lookup. -/
theorem tblGet_of_mem_nodup (t : List (String × Nat)) (p : String × Nat)
    (hp : p ∈ t) (hnd : (t.map Prod.fst).Nodup) : tblGet t p.1 = some p.2 := by
  induction t with
  | nil => cases hp
  | cons q t ih =>
    obtain ⟨k, v⟩ := q
    rw [List.map_cons, List.nodup_cons] at hnd
    rcases List.mem_cons.mp hp with h | h
    · subst h; simp [tblGet]
    · have hk : k ≠ p.1 := by
        intro hke
        apply hnd.1
        rw [hke]
        exact List.mem_map.mpr ⟨p, h, rfl⟩
      simp only [tblGet, if_neg hk]
      exact ih h hnd.2

/-- Every Frequency Table entry records a label of the sequence together
with its exact multiplicity. -/
theorem counter_entry (l : List String) (p : String × Nat) (hp : p ∈ counter l) :
    p.1 ∈ l ∧ p.2 = l.count p.1 := by
  have hk : p.1 ∈ (counter l).map Prod.fst := List.mem_map_of_mem Prod.fst hp
  have hmem : p.1 ∈ l := by
    have := (mem_keys_foldl_counter l [] p.1).mp hk
    simpa using this
  have h1 : tblGet (counter l) p.1 = some p.2 :=
    tblGet_of_mem_nodup _ p hp (nodup_keys_counter l)
  have h2 : tblGet (counter l) p.1 = some (l.count p.1) := by
    rw [tblGet_counter_eq, if_pos hmem]
  refine ⟨hmem, ?_⟩
  rw [h1] at h2
  exact Option.some.inj h2

/-- `counterInsert` grows the total count by exactly one. -/
theorem sumVals_counterInsert (t : List (String × Nat)) (c : String) :
    ((counterInsert t c).map Prod.snd).sum = (t.map Prod.snd).sum + 1 := by
  induction t with
  | nil => simp [counterInsert]
  | cons p t ih =>
    obtain ⟨k, v⟩ := p
    by_cases hk : k = c
    · subst hk; simp [counterInsert]; omega
    · simp [counterInsert, hk, ih]; omega

/-- Folding the counter over a list adds the list's length to the total
count. -/
theorem sumVals_foldl_counter (l : List String) :
    ∀ t : List (String × Nat),
      ((l.foldl counterInsert t).map Prod.snd).sum = (t.map Prod.snd).sum + l.length := by
  induction l with
  | nil => intro t; simp
  | cons a l ih =>
    intro t
    simp only [List.foldl_cons, ih, sumVals_counterInsert, List.length_cons]
    omega

/-- The counts in `counter l` total `l.length`. -/
theorem sumVals_counter (l : List String) :
    ((counter l).map Prod.snd).sum = l.length := by
  unfold counter
  simpa using sumVals_foldl_counter l []

/-- A non-empty sequence yields a non-empty Frequency Table. -/
theorem counter_ne_nil (l : List String) (h : l ≠ []) : counter l ≠ [] := by
  obtain ⟨a, l', rfl⟩ := List.exists_cons_of_ne_nil h
  intro hc
  have : a ∈ (counter (a :: l')).map Prod.fst :=
    (mem_keys_foldl_counter (a :: l') [] a).mpr (by simp)
  rw [hc] at this
  cases this

/-- C5: in every state produced by `fetch_and_parse_html` the counts in the
derived Frequency Table sum to the length of the Label Sequence; generally,
`Counter(l)`'s values always total `len(l)`. -/
theorem colorAnalyzer_frequency_table_total :
    (∀ (a : BincomColorAnalyzer) (fetched : Option (List String)),
      (((fetch_and_parse_html a fetched).1.color_frequencies).map Prod.snd).sum =
        (fetch_and_parse_html a fetched).1.colors.length) ∧
    (∀ l : List String, ((counter l).map Prod.snd).sum = l.length) := by
  constructor
  · intro a fetched
    match fetched with
    | some extracted =>
      by_cases he : extracted = [] <;>
        simp [fetch_and_parse_html, he, sumVals_counter]
    | none => simp [fetch_and_parse_html, sumVals_counter]
  · exact sumVals_counter

/-- Python `max` with a key scans left to right and keeps the current best
on ties, so the chosen element splits the scanned list into a strict-below
prefix and an at-most-equal suffix. -/
theorem pyMaxFold_decomp {α : Type} (f : α → Nat) :
    ∀ (l : List α) (a : α), ∃ l₁ l₂,
      a :: l = l₁ ++ pyMaxFold f a l :: l₂ ∧
      (∀ x ∈ l₁, f x < f (pyMaxFold f a l)) ∧
      (∀ x ∈ l₂, f x ≤ f (pyMaxFold f a l)) := by
  intro l
  induction l with
  | nil =>
    intro a
    exact ⟨[], [], by simp [pyMaxFold], by simp, by simp⟩
  | cons b l ih =>
    intro a
    by_cases hab : f a < f b
    · have hstep : pyMaxFold f a (b :: l) = pyMaxFold f b l := by
        simp [pyMaxFold, hab]
      obtain ⟨l₁, l₂, he, h₁, h₂⟩ := ih b
      rw [hstep]
      have hbm : f b ≤ f (pyMaxFold f b l) := by
        cases l₁ with
        | nil =>
          have hb : b = pyMaxFold f b l := by
            simpa using congrArg (fun s => s.head?) he
          exact le_of_eq (congrArg f hb)
        | cons c l₁t =>
          have hcb : b = c := by
            simpa using congrArg (fun s => s.head?) he
          have hlt : f c < f (pyMaxFold f b l) := h₁ c (by simp)
          rw [← hcb] at hlt
          exact le_of_lt hlt
      refine ⟨a :: l₁, l₂, ?_, ?_, h₂⟩
      · rw [List.cons_append, ← he]
      · intro x hx
        rcases List.mem_cons.mp hx with h | h
        · subst h; exact lt_of_lt_of_le hab hbm
        · exact h₁ x h
    · have hstep : pyMaxFold f a (b :: l) = pyMaxFold f a l := by
        simp [pyMaxFold, hab]
      obtain ⟨l₁, l₂, he, h₁, h₂⟩ := ih a
      rw [hstep]
      cases l₁ with
      | nil =>
        have hma : a = pyMaxFold f a l := by
          simpa using congrArg (fun s => s.head?) he
        have hl : l = l₂ := by
          simpa using congrArg (fun s => s.tail) he
        refine ⟨[], b :: l₂, ?_, by simp, ?_⟩
        · simp only [List.nil_append]
          rw [← hma, ← hl]
        · intro x hx
          rcases List.mem_cons.mp hx with h | h
          · subst h
            rw [← hma]
            exact le_of_not_lt hab
          · exact h₂ x h
      | cons c l₁t =>
        set m := pyMaxFold f a l with hm
        have hca : a = c := by
          simpa using congrArg (fun s => s.head?) he
        have hl : l = l₁t ++ m :: l₂ := by
          simpa using congrArg (fun s => s.tail) he
        have hfa : f a < f m := by
          have hlt := h₁ c (by simp)
          rwa [← hca] at hlt
        refine ⟨a :: b :: l₁t, l₂, ?_, ?_, h₂⟩
        · rw [hl]
          simp
        · intro x hx
          rcases List.mem_cons.mp hx with h | h
          · subst h; exact hfa
          · rcases List.mem_cons.mp h with h | h
            · subst h; exact lt_of_le_of_lt (le_of_not_lt hab) hfa
            · exact h₁ x (List.mem_cons_of_mem _ h)

/-- The element Python `max` picks belongs to the scanned list. -/
theorem pyMaxFold_mem {α : Type} (f : α → Nat) (l : List α) (a : α) :
    pyMaxFold f a l ∈ a :: l := by
  obtain ⟨l₁, l₂, he, _, _⟩ := pyMaxFold_decomp f l a
  rw [he]
  simp

/-- The element Python `max` picks has a maximal key. -/
theorem pyMaxFold_max {α : Type} (f : α → Nat) (l : List α) (a : α) :
    ∀ x ∈ a :: l, f x ≤ f (pyMaxFold f a l) := by
  obtain ⟨l₁, l₂, he, h₁, h₂⟩ := pyMaxFold_decomp f l a
  intro x hx
  rw [he] at hx
  rcases List.mem_append.mp hx with h | h
  · exact le_of_lt (h₁ x h)
  · rcases List.mem_cons.mp h with h | h
    · subst h; exact le_refl _
    · exact h₂ x h

/-- C1: on any state whose Frequency Table is derived from a non-empty
Label Sequence, `get_mean_color` returns a label whose tabled count is at
least every other tabled count; on an empty Frequency Table it returns
`none`. -/
theorem colorAnalyzer_mean_color_mode :
    (∀ a : BincomColorAnalyzer, a.color_frequencies = [] → get_mean_color a = none) ∧
    (∀ l : List String, l ≠ [] →
      ∃ c, get_mean_color (mkAnalyzer l) = some c ∧
        ∀ p ∈ counter l, p.2 ≤ (tblGet (counter l) c).getD 0) := by
  constructor
  · intro a h
    simp [get_mean_color, h]
  · intro l hl
    have hc : counter l ≠ [] := counter_ne_nil l hl
    obtain ⟨q, T, hqT⟩ := List.exists_cons_of_ne_nil hc
    have hmean : get_mean_color (mkAnalyzer l) =
        some (pyMaxFold (fun x => x.2) q T).1 := by
      simp [get_mean_color, mkAnalyzer, hqT, pyMax]
    set m := pyMaxFold (fun x : String × Nat => x.2) q T with hm
    have hmem : m ∈ counter l := by
      rw [hqT]
      exact pyMaxFold_mem _ T q
    have hget : tblGet (counter l) m.1 = some m.2 :=
      tblGet_of_mem_nodup _ m hmem (nodup_keys_counter l)
    refine ⟨m.1, hmean, ?_⟩
    intro p hp
    rw [hget]
    simp only [Option.getD_some]
    have := pyMaxFold_max (fun x : String × Nat => x.2) T q
    rw [← hqT] at this
    exact this p hp

/-- Witness for C1 on the concrete sequence `["RED", "GREEN", "RED"]`. -/
theorem colorAnalyzer_mean_color_mode_witness :
    ∃ c, get_mean_color (mkAnalyzer ["RED", "GREEN", "RED"]) = some c ∧
      ∀ p ∈ counter ["RED", "GREEN", "RED"],
        p.2 ≤ (tblGet (counter ["RED", "GREEN", "RED"]) c).getD 0 :=
  colorAnalyzer_mean_color_mode.2 ["RED", "GREEN", "RED"] (by simp)

/-- C4: `get_red_probability` is `count("RED") / n` on a non-empty
sequence (hence 0 when `"RED"` never appears), 0 on the empty sequence
with no division performed, and always lies in `[0, 1]`. -/
theorem colorAnalyzer_red_probability :
    ∀ l : List String,
      (l = [] → get_red_probability (mkAnalyzer l) = 0) ∧
      (l ≠ [] →
        get_red_probability (mkAnalyzer l) = (l.count "RED" : ℚ) / (l.length : ℚ)) ∧
      ("RED" ∉ l → get_red_probability (mkAnalyzer l) = 0) ∧
      0 ≤ get_red_probability (mkAnalyzer l) ∧
      get_red_probability (mkAnalyzer l) ≤ 1 := by
  intro l
  have hval : l ≠ [] →
      get_red_probability (mkAnalyzer l) = (l.count "RED" : ℚ) / (l.length : ℚ) := by
    intro hl
    simp only [get_red_probability, mkAnalyzer, if_neg hl]
    rw [tblGet_counter_eq]
    by_cases h : "RED" ∈ l
    · simp [h]
    · simp [h, List.count_eq_zero.mpr h]
  refine ⟨fun hl => by simp [get_red_probability, mkAnalyzer, hl], hval, ?_, ?_, ?_⟩
  · intro hred
    by_cases hl : l = []
    · simp [get_red_probability, mkAnalyzer, hl]
    · rw [hval hl, List.count_eq_zero.mpr hred]
      simp
  · by_cases hl : l = []
    · simp [get_red_probability, mkAnalyzer, hl]
    · rw [hval hl]
      positivity
  · by_cases hl : l = []
    · simp [get_red_probability, mkAnalyzer, hl]
    · rw [hval hl]
      have hlen : (0 : ℚ) < (l.length : ℚ) := by
        have := List.length_pos.mpr hl
        exact_mod_cast this
      rw [div_le_one hlen]
      exact_mod_cast List.count_le_length "RED" l

/-- Witness for C4 on the concrete sequence `["RED", "GREEN"]`. -/
theorem colorAnalyzer_red_probability_witness :
    get_red_probability (mkAnalyzer ["RED", "GREEN"]) =
      ((["RED", "GREEN"].count "RED" : ℚ)) / ((["RED", "GREEN"].length : ℚ)) :=
  (colorAnalyzer_red_probability ["RED", "GREEN"]).2.1 (by simp)

/-- C2: on a non-empty sequence `get_median_color` returns the entry of the
lexicographically sorted sequence at index `n / 2` for odd `n` and
`(n - 1) / 2` for even `n`, which is therefore a member of the original
sequence; on the empty sequence it returns `none`. -/
theorem colorAnalyzer_median_color :
    ∀ l : List String,
      (l = [] → get_median_color (mkAnalyzer l) = none) ∧
      (l ≠ [] →
        ∃ c, get_median_color (mkAnalyzer l) = some c ∧ c ∈ l ∧
          (l.length % 2 = 1 →
            (List.insertionSort (fun x y : String => x ≤ y) l)[l.length / 2]? = some c) ∧
          (l.length % 2 = 0 →
            (List.insertionSort (fun x y : String => x ≤ y) l)[(l.length - 1) / 2]? =
              some c)) := by
  intro l
  refine ⟨fun hl => by simp [get_median_color, mkAnalyzer, hl], fun hl => ?_⟩
  have hpos : 0 < l.length := List.length_pos.mpr hl
  set s := List.insertionSort (fun x y : String => x ≤ y) l with hs
  have hlen : s.length = l.length :=
    List.length_insertionSort (fun x y : String => x ≤ y) l
  have hperm : List.Perm s l := List.perm_insertionSort _ l
  have hunfold : get_median_color (mkAnalyzer l) =
      if l = [] then none
      else if s.length % 2 = 1 then some (s[s.length / 2]!)
      else some (s[(s.length - 1) / 2]!) := rfl
  by_cases hpar : s.length % 2 = 1
  · have hb : l.length / 2 < s.length := by omega
    refine ⟨s[l.length / 2], ?_, ?_, ?_, ?_⟩
    · rw [hunfold, if_neg hl, if_pos hpar]
      congr 1
      rw [getElem!_pos s (s.length / 2) (by omega)]
      congr 1
      omega
    · exact hperm.mem_iff.mp (List.getElem_mem hb)
    · intro _
      exact List.getElem?_eq_getElem hb
    · intro heven
      rw [hlen] at hpar
      omega
  · have hb : (l.length - 1) / 2 < s.length := by omega
    refine ⟨s[(l.length - 1) / 2], ?_, ?_, ?_, ?_⟩
    · rw [hunfold, if_neg hl, if_neg hpar]
      congr 1
      rw [getElem!_pos s ((s.length - 1) / 2) (by omega)]
      congr 1
      omega
    · exact hperm.mem_iff.mp (List.getElem_mem hb)
    · intro hodd
      rw [hlen] at hpar
      omega
    · intro _
      exact List.getElem?_eq_getElem hb

/-- Witness for C2 on the concrete sequence `["B", "A", "C"]`. -/
theorem colorAnalyzer_median_color_witness :
    ∃ c, get_median_color (mkAnalyzer ["B", "A", "C"]) = some c ∧ c ∈ ["B", "A", "C"] ∧
      (["B", "A", "C"].length % 2 = 1 →
        (List.insertionSort (fun x y : String => x ≤ y) ["B", "A", "C"])[
          ["B", "A", "C"].length / 2]? = some c) ∧
      (["B", "A", "C"].length % 2 = 0 →
        (List.insertionSort (fun x y : String => x ≤ y) ["B", "A", "C"])[
          (["B", "A", "C"].length - 1) / 2]? = some c) :=
  (colorAnalyzer_median_color ["B", "A", "C"]).2 (by simp)

/-- The Frequency Table's key list and the Label Sequence have the same
distinct labels. -/
theorem keys_counter_toFinset (l : List String) :
    ((counter l).map Prod.fst).toFinset = l.toFinset := by
  ext c
  simp only [List.mem_toFinset]
  have h := mem_keys_foldl_counter l [] c
  simpa using h

/-- The Frequency Table has one entry per distinct label. -/
theorem counter_length (l : List String) :
    (counter l).length = l.toFinset.card := by
  have h1 : (counter l).length = ((counter l).map Prod.fst).length := by
    rw [List.length_map]
  rw [h1, ← List.toFinset_card_of_nodup (nodup_keys_counter l), keys_counter_toFinset]

/-- Summing any function of the counter's values equals summing it over the
distinct labels' multiplicities. -/
theorem counter_vals_sum (l : List String) (f : Nat → ℚ) :
    (((counter l).map (fun p => p.2)).map f).sum = ∑ c ∈ l.toFinset, f (l.count c) := by
  rw [List.map_map]
  have h1 : (counter l).map (f ∘ fun p => p.2) =
      (counter l).map (fun p => f (l.count p.1)) :=
    List.map_congr_left (fun p hp => by
      simp only [Function.comp_apply]
      rw [(counter_entry l p hp).2])
  rw [h1]
  have h2 : (counter l).map (fun p => f (l.count p.1)) =
      ((counter l).map Prod.fst).map (fun c => f (l.count c)) := by
    rw [List.map_map]
    rfl
  rw [h2, ← List.sum_toFinset _ (nodup_keys_counter l), keys_counter_toFinset]

/-- C3: on a non-empty sequence with `k` distinct labels and `n` total
labels, `get_color_variance` equals the spec formula
`(1/k) * Σ (count(label) - n/k)^2`; on the empty sequence it returns 0.
Python's float arithmetic is modelled exactly over `ℚ`. -/
theorem colorAnalyzer_color_variance :
    ∀ l : List String,
      (l = [] → get_color_variance (mkAnalyzer l) = 0) ∧
      (l ≠ [] → get_color_variance (mkAnalyzer l) = spec_color_variance l) := by
  intro l
  refine ⟨fun hl => by simp [get_color_variance, mkAnalyzer, hl], fun hl => ?_⟩
  have hunfold : get_color_variance (mkAnalyzer l) =
      if l = [] then 0
      else
        (((counter l).map (fun p => p.2)).map
            (fun (freq : Nat) => ((freq : ℚ) -
              (l.length : ℚ) / ((((counter l).map (fun p => p.2)).length : ℚ))) ^ 2)).sum /
          ((((counter l).map (fun p => p.2)).length : ℚ)) := rfl
  rw [hunfold, if_neg hl]
  have hlen : (((counter l).map (fun p => p.2)).length : ℚ) = (l.toFinset.card : ℚ) := by
    rw [List.length_map, counter_length]
  rw [hlen, counter_vals_sum l
    (fun freq => ((freq : ℚ) - (l.length : ℚ) / (l.toFinset.card : ℚ)) ^ 2)]
  rw [spec_color_variance]
  rw [div_eq_mul_inv, one_div, mul_comm]

/-- Witness for C3 on the documented fallback sequence (variance 9/4). -/
theorem colorAnalyzer_color_variance_witness :
    get_color_variance (mkAnalyzer fallback_colors) = spec_color_variance fallback_colors :=
  (colorAnalyzer_color_variance fallback_colors).2 (by decide)

/-- Unrolling `recursive_search` from any start index: it returns `-1` when
no element at position `≥ index` matches, and returns `i` when `i` is the
least matching position `≥ index`. -/
theorem recursive_search_spec_aux (numbers : List Int) (target : Int) :
    ∀ (fuel index : Nat), numbers.length - index ≤ fuel →
      ((∀ j (hj : j < numbers.length), index ≤ j → numbers[j] ≠ target) →
        recursive_search numbers target index = -1) ∧
      (∀ i (hi : i < numbers.length), index ≤ i → numbers[i] = target →
        (∀ j (hj : j < numbers.length), index ≤ j → j < i → numbers[j] ≠ target) →
        recursive_search numbers target index = (i : Int)) := by
  intro fuel
  induction fuel with
  | zero =>
    intro index h0
    have hle : numbers.length ≤ index := by omega
    constructor
    · intro _
      rw [recursive_search]
      simp [hle]
    · intro i hi hii _ _
      omega
  | succ fuel ih =>
    intro index hf
    by_cases hle : numbers.length ≤ index
    · constructor
      · intro _
        rw [recursive_search]
        simp [hle]
      · intro i hi hii _ _
        omega
    · have hidx : index < numbers.length := by omega
      have hbang : numbers[index]! = numbers.get ⟨index, hidx⟩ := getElem!_pos numbers index hidx
      constructor
      · intro hnone
        rw [recursive_search]
        rw [dif_neg hle, hbang]
        have hne : numbers.get ⟨index, hidx⟩ ≠ target := hnone index hidx (le_refl _)
        rw [if_neg hne]
        exact (ih (index + 1) (by omega)).1 (fun j hj hij => hnone j hj (by omega))
      · intro i hi hii hit hprev
        rw [recursive_search]
        rw [dif_neg hle, hbang]
        by_cases hcase : i = index
        · subst hcase
          rw [if_pos (show numbers.get ⟨i, hidx⟩ = target from hit)]
        · have hlt : index < i := lt_of_le_of_ne hii (fun h => hcase h.symm)
          have hne : numbers.get ⟨index, hidx⟩ ≠ target := hprev index hidx (le_refl _) hlt
          rw [if_neg hne]
          exact (ih (index + 1) (by omega)).2 i hi (by omega) hit
            (fun j hj h1 h2 => hprev j hj (by omega) h2)

/-- C8: `recursive_search` returns the index of the leftmost element equal
to the target and `-1` when no element matches (in particular on the empty
list); concretely, searching `[1,5,8,12,15,20,25]` for 15 gives 4. -/
theorem recursive_search_first_match :
    (∀ (numbers : List Int) (target : Int),
      (target ∉ numbers → recursive_search numbers target = -1) ∧
      (target ∈ numbers →
        ∃ i : Nat, recursive_search numbers target = (i : Int) ∧
          numbers[i]? = some target ∧
          ∀ j : Nat, j < i → numbers[j]? ≠ some target)) ∧
    recursive_search [1, 5, 8, 12, 15, 20, 25] 15 = 4 ∧
    recursive_search ([] : List Int) 7 = -1 := by
  refine ⟨?_, ?_, ?_⟩
  · intro numbers target
    constructor
    · intro hnm
      exact (recursive_search_spec_aux numbers target numbers.length 0 (by omega)).1
        (fun j hj _ hjt => hnm (hjt ▸ List.getElem_mem hj))
    · intro hm
      have hP : ∃ i : Nat, i < numbers.length ∧ numbers[i]? = some target := by
        obtain ⟨i, hi, hit⟩ := List.getElem_of_mem hm
        exact ⟨i, hi, by rw [List.getElem?_eq_getElem hi, hit]⟩
      classical
      have hPi := Nat.find_spec hP
      refine ⟨Nat.find hP, ?_, hPi.2, ?_⟩
      · have hget : numbers.get ⟨Nat.find hP, hPi.1⟩ = target := by
          have := hPi.2
          rwa [List.getElem?_eq_getElem hPi.1, Option.some.injEq] at this
        exact (recursive_search_spec_aux numbers target numbers.length 0 (by omega)).2
          (Nat.find hP) hPi.1 (by omega) hget
          (fun j hj _ hji hjt => Nat.find_min hP hji ⟨hj, by
            rw [List.getElem?_eq_getElem hj, hjt]⟩)
      · intro j hji hjt
        have hj : j < numbers.length := by
          by_contra hc
          rw [List.getElem?_eq_none (by omega)] at hjt
          exact Option.noConfusion hjt
        exact Nat.find_min hP hji ⟨hj, hjt⟩
  · exact (recursive_search_spec_aux [1, 5, 8, 12, 15, 20, 25] 15 7 0 (by decide)).2
      4 (by decide) (by omega) (by decide)
      (fun j hj _ hj4 => by
        interval_cases j <;> simp)
  · exact (recursive_search_spec_aux ([] : List Int) 7 0 0 (by decide)).1
      (fun j hj _ => by simp at hj)

/-- Witness for C8: target absent from a concrete list yields `-1`. -/
theorem recursive_search_first_match_witness :
    recursive_search [2, 3] 7 = -1 :=
  (recursive_search_first_match.1 [2, 3] 7).1 (by decide)

/-- The distinct labels of a sequence in order of first occurrence. -/
def firstOccList : List String → List String
  | [] => []
  | c :: l => c :: (firstOccList l).filter (fun d => d ≠ c)

/-- Folding the counter appends exactly the not-yet-seen first occurrences
to the accumulated key list, preserving order. -/
theorem keys_foldl_firstOcc (l : List String) :
    ∀ t : List (String × Nat),
      (l.foldl counterInsert t).map Prod.fst =
        t.map Prod.fst ++
          (firstOccList l).filter (fun c => c ∉ t.map Prod.fst) := by
  induction l with
  | nil => intro t; simp [firstOccList]
  | cons c l ih =>
    intro t
    rw [List.foldl_cons, ih (counterInsert t c), keys_counterInsert]
    by_cases hc : c ∈ t.map Prod.fst
    · rw [if_pos hc]
      simp only [firstOccList, List.filter_cons]
      have hcb : ¬ (c ∉ t.map Prod.fst) := by simpa using hc
      rw [if_neg (by simpa using hcb)]
      congr 1
      rw [List.filter_filter]
      apply List.filter_congr
      intro x _
      by_cases hxK : x ∈ t.map Prod.fst
      · simp [hxK]
      · have hxc : x ≠ c := fun h => hxK (h ▸ hc)
        simp [hxK, hxc]
    · rw [if_neg hc]
      simp only [firstOccList, List.filter_cons]
      rw [if_pos (by simpa using hc)]
      rw [List.append_assoc, List.singleton_append]
      congr 2
      rw [List.filter_filter]
      apply List.filter_congr
      intro x _
      by_cases hxc : x = c
      · subst hxc; simp
      · by_cases hxK : x ∈ t.map Prod.fst <;> simp [hxc, hxK]

/-- The Frequency Table's keys are exactly the labels in first-occurrence
order ("Counter preserves first-insertion order"). -/
theorem keys_counter_firstOcc (l : List String) :
    (counter l).map Prod.fst = firstOccList l := by
  have h := keys_foldl_firstOcc l []
  simpa [counter] using h

/-- First-occurrence order is monotone in the position of first occurrence
in the original sequence. -/
theorem pairwise_indexOf_firstOccList (l : List String) :
    (firstOccList l).Pairwise (fun a b => l.indexOf a < l.indexOf b) := by
  induction l with
  | nil => simp [firstOccList]
  | cons c l ih =>
    rw [firstOccList, List.pairwise_cons]
    constructor
    · intro b hb
      have hbm := List.mem_filter.mp hb
      have hbc : b ≠ c := by simpa using hbm.2
      rw [List.indexOf_cons_self, List.indexOf_cons_ne _ (fun h => hbc h.symm)]
      exact Nat.succ_pos _
    · have hf : ((firstOccList l).filter (fun d => d ≠ c)).Pairwise
          (fun a b => l.indexOf a < l.indexOf b) :=
        ih.sublist (List.filter_sublist _)
      refine List.Pairwise.imp_of_mem ?_ hf
      intro a b ha hb hR
      have hac : a ≠ c := by simpa using (List.mem_filter.mp ha).2
      have hbc : b ≠ c := by simpa using (List.mem_filter.mp hb).2
      rw [List.indexOf_cons_ne _ (fun h => hac h.symm),
        List.indexOf_cons_ne _ (fun h => hbc h.symm)]
      exact Nat.succ_lt_succ hR

/-- C10: the Frequency Table lists its keys in strictly increasing order of
first occurrence in the Label Sequence, and on a tie for the maximal count
`get_mean_color` returns the tied label whose first occurrence is earliest:
every tabled label with the same count has a first occurrence no earlier
than the returned label's. -/
theorem colorAnalyzer_mean_color_tiebreak :
    ∀ l : List String,
      ((counter l).map Prod.fst).Pairwise (fun a b => l.indexOf a < l.indexOf b) ∧
      (∀ c, get_mean_color (mkAnalyzer l) = some c →
        c ∈ l ∧
        ∀ p ∈ counter l, p.2 = l.count c → l.indexOf c ≤ l.indexOf p.1) := by
  intro l
  have hpw : ((counter l).map Prod.fst).Pairwise
      (fun a b => l.indexOf a < l.indexOf b) := by
    rw [keys_counter_firstOcc]
    exact pairwise_indexOf_firstOccList l
  refine ⟨hpw, ?_⟩
  intro c hc
  have hne : counter l ≠ [] := by
    intro h
    rw [get_mean_color, mkAnalyzer] at hc
    simp [h] at hc
  obtain ⟨q, T, hqT⟩ := List.exists_cons_of_ne_nil hne
  have hcm : c = (pyMaxFold (fun x : String × Nat => x.2) q T).1 := by
    rw [get_mean_color, mkAnalyzer] at hc
    simp only [hqT] at hc
    rw [if_neg (by simp)] at hc
    simp [pyMax] at hc
    exact hc.symm
  set m := pyMaxFold (fun x : String × Nat => x.2) q T with hm
  have hmem : m ∈ counter l := by
    rw [hqT]
    exact pyMaxFold_mem _ T q
  have hment := counter_entry l m hmem
  have hcl : c ∈ l := by rw [hcm]; exact hment.1
  refine ⟨hcl, ?_⟩
  intro p hp hpc
  have hpm2 : p.2 = m.2 := by
    rw [hpc, hcm, ← hment.2]
  obtain ⟨l₁, l₂, he, h₁, h₂⟩ := pyMaxFold_decomp (fun x : String × Nat => x.2) T q
  rw [← hm] at he h₁ h₂
  have hsplit : counter l = l₁ ++ m :: l₂ := by rw [hqT, he]
  have hpmem : p ∈ l₁ ++ m :: l₂ := by rw [← hsplit]; exact hp
  rcases List.mem_append.mp hpmem with hpl | hpr
  · have hlt : p.2 < m.2 := h₁ p hpl
    omega
  · rcases List.mem_cons.mp hpr with hpe | hpl₂
    · rw [hcm, hpe]
    · have hkeys : ((l₁ ++ m :: l₂).map Prod.fst).Pairwise
          (fun a b => l.indexOf a < l.indexOf b) := by rw [← hsplit]; exact hpw
      rw [List.map_append, List.map_cons] at hkeys
      have hparts := (List.pairwise_append.mp hkeys).2.1
      have hhead := (List.pairwise_cons.mp hparts).1
      have hlt : l.indexOf m.1 < l.indexOf p.1 :=
        hhead p.1 (List.mem_map_of_mem Prod.fst hpl₂)
      rw [hcm]
      exact le_of_lt hlt

/-- Witness for C10 on `["GREEN", "RED", "RED", "GREEN"]`: GREEN and RED
tie at count 2 and GREEN, first encountered, is returned. -/
theorem colorAnalyzer_mean_color_tiebreak_witness :
    "GREEN" ∈ ["GREEN", "RED", "RED", "GREEN"] ∧
    ∀ p ∈ counter ["GREEN", "RED", "RED", "GREEN"],
      p.2 = ["GREEN", "RED", "RED", "GREEN"].count "GREEN" →
      ["GREEN", "RED", "RED", "GREEN"].indexOf "GREEN" ≤
        ["GREEN", "RED", "RED", "GREEN"].indexOf p.1 :=
  (colorAnalyzer_mean_color_tiebreak ["GREEN", "RED", "RED", "GREEN"]).2
    "GREEN" (by decide)
